import Mathlib

/-!
Shallow embedding of `src/scripts/preprocess_data.py` (Bible data
preprocessing: USFX text extraction and cross-reference linking).

Conventions of the embedding:
* Python strings are Lean `String`s; all string manipulation is
  implemented explicitly over `String.data` (lists of characters) so that
  every definition is executable by kernel reduction.
* Python `dict`s are association lists built only through the insertion
  operations below (so keys stay unique); Python `set`s of strings are
  duplicate-free lists.
* Python whitespace (`str.strip`, `\s` in regexes) is modeled by
  `Char.isWhitespace` (space, tab, newline, carriage return), which covers
  every whitespace character appearing in the data formats at hand.
* `$` at the end of the citation regex is modeled as end-of-string; the
  script only applies the regex to fields of a stripped line, which never
  end in a newline.
* XML elements (`xml.etree.ElementTree`) are modeled by `XmlNode` with
  `tag`, attributes, `text` (text before the first child), children and
  `tail` (text following the element inside its parent); `elem.iter()` is
  preorder traversal.  Logging (`print`), debug counters and file I/O are
  not modeled; file absence is modeled by `Option` inputs to the pipeline.
-/

namespace Preprocess

/-- Model of Python truthiness for an optional string attribute:
`None` and the empty string are falsy. -/
def truthy : Option String → Bool
  | none => false
  | some s => !(s.data.isEmpty)

/-- Characters dropped by Python `str.strip()` / collapsed by `\s`. -/
def trimChars (cs : List Char) : List Char :=
  ((cs.dropWhile Char.isWhitespace).reverse.dropWhile Char.isWhitespace).reverse

/-- Model of Python `str.strip()`. -/
def pyStrip (s : String) : String := ⟨trimChars s.data⟩

/-- Maximal non-whitespace runs of a character list (helper for
`cleanText`); `cur` is the current run, accumulated in reverse. -/
def wsWordsAux : List Char → List Char → List (List Char)
  | [], cur => if cur.isEmpty then [] else [cur.reverse]
  | c :: cs, cur =>
      if c.isWhitespace then
        if cur.isEmpty then wsWordsAux cs [] else cur.reverse :: wsWordsAux cs []
      else wsWordsAux cs (c :: cur)

/-- Join character-list words with single spaces. -/
def joinSpace : List (List Char) → List Char
  | [] => []
  | [w] => w
  | w :: ws => w ++ ' ' :: joinSpace ws

/-- Model of `re.sub(r'\s+', ' ', s).strip()`: collapse whitespace runs
to single spaces and trim the ends. -/
def cleanText (s : String) : String := ⟨joinSpace (wsWordsAux s.data [])⟩

/-- Decimal value of a digit list (most significant first). -/
def digitsVal (cs : List Char) : Nat :=
  cs.foldl (fun acc c => acc * 10 + (c.toNat - '0'.toNat)) 0

/-- Model of Python `int(str)` on a string: optional surrounding
whitespace, an optional sign, then a nonempty run of decimal digits.
(Underscore separators, accepted by Python, are not modeled; no input
relevant here contains them.) -/
def pyIntOfChars (cs : List Char) : Option Int :=
  match trimChars cs with
  | [] => none
  | '-' :: rest =>
      if rest ≠ [] ∧ rest.all Char.isDigit then some (-(digitsVal rest : Int)) else none
  | '+' :: rest =>
      if rest ≠ [] ∧ rest.all Char.isDigit then some (digitsVal rest : Int) else none
  | t =>
      if t.all Char.isDigit then some (digitsVal t : Int) else none

/-- Model of Python `int(x)` where `x` is an optional string
(`int(None)` raises `TypeError`, a malformed string raises
`ValueError`; both are modeled as `none`). -/
def pyInt : Option String → Option Int
  | none => none
  | some s => pyIntOfChars s.data

/-- Model of Python `str.upper()` (ASCII letters, which is all the
data contains). -/
def pyUpper (s : String) : String := ⟨s.data.map Char.toUpper⟩

/-- Decimal representation of a natural number: the recursion of
`str(int)`, fuel-based so that it evaluates by kernel reduction. -/
def natDigitsAux : Nat → Nat → List Char → List Char
  | 0, _, acc => acc
  | fuel + 1, n, acc =>
      if n < 10 then Nat.digitChar n :: acc
      else natDigitsAux fuel (n / 10) (Nat.digitChar (n % 10) :: acc)

/-- Decimal string of a natural number (no sign, no leading zeros). -/
def natRepr (n : Nat) : String := ⟨natDigitsAux (n + 1) n []⟩

/-- Model of Python `str(i)` for an `int`. -/
def intRepr (i : Int) : String :=
  if i < 0 then "-" ++ natRepr (-i).toNat else natRepr i.toNat

/-- The 66-book Protestant canon constant `PROTESTANT_CANON_CODES`,
transcribed in the order of the source literal (which is canonical
reading order, Genesis through Revelation); the script uses it only as
a set, via membership. -/
def PROTESTANT_CANON_CODES : List String :=
  ["GEN", "EXO", "LEV", "NUM", "DEU", "JOS", "JDG", "RUT", "1SA", "2SA",
   "1KI", "2KI", "1CH", "2CH", "EZR", "NEH", "EST", "JOB", "PSA", "PRO",
   "ECC", "SNG", "ISA", "JER", "LAM", "EZK", "DAN", "HOS", "JOL", "AMO",
   "OBA", "JON", "MIC", "NAM", "HAB", "ZEP", "HAG", "ZEC", "MAL", "MAT",
   "MRK", "LUK", "JHN", "ACT", "ROM", "1CO", "2CO", "GAL", "EPH", "PHP",
   "COL", "1TH", "2TH", "1TI", "2TI", "TIT", "PHM", "HEB", "JAS", "1PE",
   "2PE", "1JN", "2JN", "3JN", "JUD", "REV"]

/-- The abbreviation table `ABBR_MAP` for the cross-reference file. -/
def ABBR_MAP : List (String × String) :=
  [("Gen", "GEN"), ("Exod", "EXO"), ("Ex", "EXO"), ("Lev", "LEV"), ("Num", "NUM"),
   ("Deut", "DEU"),
   ("Josh", "JOS"), ("Judg", "JDG"), ("Jdgs", "JDG"), ("Ruth", "RUT"),
   ("1 Sam", "1SA"), ("2 Sam", "2SA"), ("1Sam", "1SA"), ("2Sam", "2SA"),
   ("1 Kgs", "1KI"), ("1Kgs", "1KI"),
   ("2 Kgs", "2KI"), ("2Kgs", "2KI"),
   ("1 Chr", "1CH"), ("1Chr", "1CH"),
   ("2 Chr", "2CH"), ("2Chr", "2CH"),
   ("Ezra", "EZR"), ("Neh", "NEH"), ("Esth", "EST"), ("Job", "JOB"), ("Ps", "PSA"),
   ("Psa", "PSA"),
   ("Prov", "PRO"), ("Eccl", "ECC"), ("Song", "SNG"), ("Isa", "ISA"), ("Jer", "JER"),
   ("Lam", "LAM"), ("Ezek", "EZK"), ("Dan", "DAN"), ("Hos", "HOS"), ("Joel", "JOL"),
   ("Amos", "AMO"), ("Obad", "OBA"), ("Jonah", "JON"), ("Mic", "MIC"), ("Nah", "NAM"),
   ("Hab", "HAB"), ("Zeph", "ZEP"), ("Hag", "HAG"), ("Zech", "ZEC"), ("Mal", "MAL"),
   ("Matt", "MAT"), ("Mark", "MRK"), ("Mk", "MRK"), ("Luke", "LUK"), ("Lk", "LUK"),
   ("John", "JHN"), ("Jn", "JHN"),
   ("Acts", "ACT"), ("Rom", "ROM"),
   ("1 Cor", "1CO"), ("1Cor", "1CO"),
   ("2 Cor", "2CO"), ("2Cor", "2CO"),
   ("Gal", "GAL"), ("Eph", "EPH"), ("Phil", "PHP"), ("Col", "COL"),
   ("1 Thess", "1TH"), ("1Thess", "1TH"),
   ("2 Thess", "2TH"), ("2Thess", "2TH"),
   ("1 Tim", "1TI"), ("1Tim", "1TI"),
   ("2 Tim", "2TI"),
   ("Titus", "TIT"), ("Phlm", "PHM"), ("Heb", "HEB"), ("Jas", "JAS"),
   ("1 Pet", "1PE"), ("1Pet", "1PE"),
   ("2 Pet", "2PE"), ("2Pet", "2PE"),
   ("1 John", "1JN"), ("1John", "1JN"),
   ("2 John", "2JN"),
   ("3 John", "3JN"),
   ("Jude", "JUD"), ("Rev", "REV")]

/-- `\s*$`: the remainder is whitespace only. -/
def onlyWs (cs : List Char) : Bool := cs.all Char.isWhitespace

/-- Matcher for the optional range tail of `verse_pattern`, i.e.
`(?:-\s*(?:\d+|[a-zA-Z]+\.?\s*\d+\.\d+))?\s*$`, applied after the verse
digits.  All quantifiers of the source regex are greedy and (as each
repeated class is disjoint from what must follow it) backtracking can
never produce a match the greedy strategy misses, so maximal munch is a
faithful implementation. -/
def rangeTailOk (cs : List Char) : Bool :=
  match cs with
  | '-' :: rest =>
      let r := rest.dropWhile Char.isWhitespace
      let ds := r.takeWhile Char.isDigit
      let dRest := r.dropWhile Char.isDigit
      let ls := r.takeWhile Char.isAlpha
      let lRest := r.dropWhile Char.isAlpha
      (!ds.isEmpty && onlyWs dRest)
      || (!ls.isEmpty &&
           (let r2 := match lRest with
                      | '.' :: t => t
                      | t => t
            let r3 := r2.dropWhile Char.isWhitespace
            let d1 := r3.takeWhile Char.isDigit
            let r4 := r3.dropWhile Char.isDigit
            !d1.isEmpty &&
              (match r4 with
               | '.' :: r5 =>
                   let d2 := r5.takeWhile Char.isDigit
                   let r6 := r5.dropWhile Char.isDigit
                   !d2.isEmpty && onlyWs r6
               | _ => false)))
  | cs => onlyWs cs

/-- Model of `verse_pattern.match`:
`^\s*(\d*\s*[a-zA-Z]+)\.?\s*(\d+)\.(\d+)(?:-\s*(?:\d+|[a-zA-Z]+\.?\s*\d+\.\d+))?\s*$`,
returning the three captured groups (raw book part, chapter digits,
verse digits). -/
def citationMatch (s : String) : Option (String × String × String) :=
  let cs := s.data.dropWhile Char.isWhitespace
  let ds := cs.takeWhile Char.isDigit
  let r1 := cs.dropWhile Char.isDigit
  let sp := r1.takeWhile Char.isWhitespace
  let r2 := r1.dropWhile Char.isWhitespace
  let ls := r2.takeWhile Char.isAlpha
  let r3 := r2.dropWhile Char.isAlpha
  if ls.isEmpty then none
  else
    let bookRaw : String := ⟨ds ++ sp ++ ls⟩
    let r4 := match r3 with
              | '.' :: t => t
              | t => t
    let r5 := r4.dropWhile Char.isWhitespace
    let ch := r5.takeWhile Char.isDigit
    let r6 := r5.dropWhile Char.isDigit
    if ch.isEmpty then none
    else
      match r6 with
      | '.' :: r7 =>
          let vs := r7.takeWhile Char.isDigit
          let r8 := r7.dropWhile Char.isDigit
          if vs.isEmpty then none
          else if rangeTailOk r8 then some (bookRaw, ⟨ch⟩, ⟨vs⟩) else none
      | _ => none

/-- `standardize_verse_ref` from the script: match the citation shape,
then resolve the book part through `local_abbr_map`, an exact-case
direct match against the known canon codes, or an upper-cased match;
return the standardized `"CODE CH:VS"` or `none`.  (The debug prints of
the source are not modeled.) -/
def standardize_verse_ref (ref : String) (localAbbrMap : List (String × String))
    (knownCanonAbbrsSet : List String) : Option String :=
  match citationMatch ref with
  | none => none
  | some (bookRaw, chapter, verse) =>
      let book_part := pyStrip bookRaw
      let direct : Option String :=
        if book_part ∈ knownCanonAbbrsSet then
          some (book_part ++ " " ++ chapter ++ ":" ++ verse)
        else if pyUpper book_part ∈ knownCanonAbbrsSet then
          some (pyUpper book_part ++ " " ++ chapter ++ ":" ++ verse)
        else none
      match localAbbrMap.lookup book_part with
      | some canonAbbr =>
          if canonAbbr ≠ "" ∧ canonAbbr ∈ knownCanonAbbrsSet then
            some (canonAbbr ++ " " ++ chapter ++ ":" ++ verse)
          else direct
      | none => direct

/-- Model of an `xml.etree.ElementTree` element: tag, attributes, the
text before the first child, the child elements, and the tail text
following the element inside its parent. -/
inductive XmlNode where
  | mk (tag : String) (attrs : List (String × String)) (text : Option String)
       (children : List XmlNode) (tail : Option String)

def XmlNode.tag : XmlNode → String
  | .mk t _ _ _ _ => t

def XmlNode.attrs : XmlNode → List (String × String)
  | .mk _ a _ _ _ => a

def XmlNode.text : XmlNode → Option String
  | .mk _ _ tx _ _ => tx

def XmlNode.children : XmlNode → List XmlNode
  | .mk _ _ _ cs _ => cs

def XmlNode.tail : XmlNode → Option String
  | .mk _ _ _ _ tl => tl

/-- Model of `elem.get(name)`: attribute lookup. -/
def XmlNode.attr (n : XmlNode) (name : String) : Option String :=
  n.attrs.lookup name

mutual

/-- Model of `list(elem.iter())`: the element followed by all its
descendants, in document (preorder) order. -/
def XmlNode.preorder : XmlNode → List XmlNode
  | .mk t a tx cs tl => .mk t a tx cs tl :: XmlNode.preorderList cs

def XmlNode.preorderList : List XmlNode → List XmlNode
  | [] => []
  | n :: ns => n.preorder ++ XmlNode.preorderList ns

end

/-- Python `dict` assignment `d[k] = v` on an association list: replace
the value if the key is present, otherwise append the pair. -/
def dictInsert (d : List (String × String)) (k v : String) : List (String × String) :=
  match d.lookup k with
  | some _ => d.map (fun p => if p.1 = k then (p.1, v) else p)
  | none => d ++ [(k, v)]

/-- One entry of `bible_meta_list`. -/
structure BookMeta where
  book_name : String
  book_abbr : String
  chapters : List Int
deriving DecidableEq, Repr

/-- Verse identifier `f"{book_abbr} {chapter}:{verse}"` as built by the
extractor from the int-parsed chapter and verse numbers. -/
def verseKey (abbr : String) (chapter verse : Int) : String :=
  abbr ++ " " ++ intRepr chapter ++ ":" ++ intRepr verse

/-- State of the inner (descendant) traversal of one block child:
`collecting_text_for_verse`, `verse_text_buffer`,
`last_verse_in_chapter` and the shared `bible_text_dict`.  (The
variable `current_verse_num` of the source is only ever copied into
`collecting_text_for_verse` and is not separate state.) -/
structure InnerState where
  collecting : Int
  buffer : String
  lastVerse : Int
  text : List (String × String)
deriving DecidableEq, Repr

/-- Flush the buffered text of the verse currently being collected into
the verse-text dict (skipped when the cleaned text is empty). -/
def flushVerse (abbr : String) (chapter : Int) (st : InnerState) : List (String × String) :=
  if cleanText st.buffer ≠ "" then
    dictInsert st.text (verseKey abbr chapter st.collecting) (cleanText st.buffer)
  else st.text

/-- One step of the inner `while` loop over `nodes_to_process`: the
`<v>` branch (parse the new verse id, flushing the previous verse only
inside the successful `try`), the `<ve/>` branch, and the text/word
content branch (only `<w>` text contributes; tails contribute for the
recognized inline tags). -/
def stepInner (abbr : String) (chapter : Int) (st : InnerState) (n : XmlNode) : InnerState :=
  if n.tag = "v" then
    match pyInt (n.attr "id") with
    | some newV =>
        let text1 := if st.collecting > 0 then flushVerse abbr chapter st else st.text
        let st1 : InnerState :=
          { collecting := newV, buffer := "", lastVerse := max st.lastVerse newV, text := text1 }
        if truthy n.tail ∧ newV > 0 then
          { st1 with buffer := st1.buffer ++ pyStrip (n.tail.getD "") ++ " " }
        else st1
    | none => { st with collecting := 0 }
  else if n.tag = "ve" then
    let text1 := if st.collecting > 0 then flushVerse abbr chapter st else st.text
    { st with text := text1, collecting := 0 }
  else if st.collecting > 0 then
    let currentText := if n.tag = "w" ∧ truthy n.text then pyStrip (n.text.getD "") else ""
    let b1 := if currentText ≠ "" then st.buffer ++ currentText ++ " " else st.buffer
    let b2 :=
      if truthy n.tail ∧ n.tag ∈ ["w", "char", "ref", "bk", "v"] then
        b1 ++ pyStrip (n.tail.getD "") ++ " "
      else b1
    { st with buffer := b2 }
  else st

/-- Process one non-chapter child of a `<book>` element (entered only
while a valid chapter is open): traverse its full descendant list with
a fresh verse cursor and buffer, threading `last_verse_in_chapter` and
the verse-text dict.  Text still being collected when the node ends is
discarded (the source has no flush after the inner loop). -/
def processBlockChild (abbr : String) (chapter : Int) (lastVerse : Int)
    (text : List (String × String)) (node : XmlNode) : Int × List (String × String) :=
  let st := node.preorder.foldl (stepInner abbr chapter)
    { collecting := 0, buffer := "", lastVerse := lastVerse, text := text }
  (st.lastVerse, st.text)

/-- State of the per-book child loop: `chapter_verse_counts`,
`last_verse_in_chapter`, `current_chapter_num` and the shared
verse-text dict. -/
structure BookState where
  counts : List Int
  lastVerse : Int
  curChapter : Int
  text : List (String × String)
deriving DecidableEq, Repr

/-- Close the currently open chapter: append its max verse number, or 0
(with a warning in the source) if no verses were recorded; no-op when
no chapter is open. -/
def closeChapter (st : BookState) : List Int :=
  if st.curChapter > 0 ∧ st.lastVerse > 0 then st.counts ++ [st.lastVerse]
  else if st.curChapter > 0 then st.counts ++ [0]
  else st.counts

/-- The loop over the direct children of a `<book>` element.  A `<c>`
marker closes the previous chapter and parses the new chapter id; an
invalid chapter id sets the chapter state to 0 and `break`s out of the
loop.  Any other child is processed for verses when a valid chapter is
open. -/
def processBookChildren (abbr : String) (st : BookState) : List XmlNode → BookState
  | [] => st
  | n :: rest =>
      if n.tag = "c" then
        let counts1 := closeChapter st
        match pyInt (n.attr "id") with
        | some ch =>
            processBookChildren abbr
              { st with counts := counts1, curChapter := ch, lastVerse := 0 } rest
        | none => { st with counts := counts1, curChapter := 0 }
      else
        if st.curChapter > 0 then
          processBookChildren abbr
            { st with
              lastVerse := (processBlockChild abbr st.curChapter st.lastVerse st.text n).1,
              text := (processBlockChild abbr st.curChapter st.lastVerse st.text n).2 } rest
        else processBookChildren abbr st rest

/-- Accumulated outputs of Step 2: `book_order`, `bible_meta_list` and
`bible_text_dict`. -/
structure ExtractAcc where
  bookOrder : List String
  metaList : List BookMeta
  text : List (String × String)
deriving DecidableEq, Repr

/-- Process one `<book>` element: skip it unless its `id` is a truthy
canon code; otherwise record it in `book_order`, resolve its display
name, run the child loop, close the last chapter, and keep a metadata
entry only if at least one chapter length was recorded. -/
def processBook (nameDict : List (String × String)) (acc : ExtractAcc) (b : XmlNode) :
    ExtractAcc :=
  match b.attr "id" with
  | none => acc
  | some abbr =>
      if abbr = "" then acc
      else if abbr ∉ PROTESTANT_CANON_CODES then acc
      else
        let name := (nameDict.lookup abbr).getD abbr
        let order1 := acc.bookOrder ++ [abbr]
        let st := processBookChildren abbr
          { counts := [], lastVerse := 0, curChapter := 0, text := acc.text } b.children
        let counts := closeChapter st
        if counts ≠ [] then
          { bookOrder := order1, metaList := acc.metaList ++ [⟨name, abbr, counts⟩],
            text := st.text }
        else { bookOrder := order1, metaList := acc.metaList, text := st.text }

/-- Step 2 of the script: iterate over the `<book>` elements of the
USFX document (given in document order). -/
def extractBooks (nameDict : List (String × String)) (books : List XmlNode) : ExtractAcc :=
  books.foldl (processBook nameDict) ⟨[], [], []⟩

/-- The metadata entries whose `book_abbr` equals a given code. -/
def metasFor (ms : List BookMeta) (c : String) : List BookMeta :=
  ms.filter (fun m => m.book_abbr = c)

/-- `final_meta_list`: the comprehension
`[meta for book_code in book_order for meta in bible_meta_list if meta['book_abbr'] == book_code]`. -/
def finalMetaList (r : ExtractAcc) : List BookMeta :=
  r.bookOrder.flatMap (metasFor r.metaList)

/-- Python set insertion on a duplicate-free list model of a set. -/
def insertSet (s : List String) (v : String) : List String :=
  if v ∈ s then s else s ++ [v]

/-- `refs_intermediate.setdefault(k, set()).add(v)` on the
association-list model of the dict of sets. -/
def dictSetAdd (g : List (String × List String)) (k v : String) :
    List (String × List String) :=
  match g.lookup k with
  | some _ => g.map (fun p => if p.1 = k then (p.1, insertSet p.2 v) else p)
  | none => g ++ [(k, [v])]

/-- Adjacency of a verse in the intermediate or final graph (empty for
a missing key). -/
def adj (g : List (String × List String)) (k : String) : List String :=
  (g.lookup k).getD []

/-- The bidirectional insertion performed for one accepted pair. -/
def addPair (g : List (String × List String)) (a b : String) :
    List (String × List String) :=
  dictSetAdd (dictSetAdd g a b) b a

/-- Handle one standardized citation pair: require both sides to
standardize, differ, and be known verses; then link bidirectionally. -/
def linkPair (knownVerses : List String) (knownCanonAbbrsSet : List String)
    (g : List (String × List String)) (rawA rawB : String) :
    List (String × List String) :=
  match standardize_verse_ref rawA ABBR_MAP knownCanonAbbrsSet,
        standardize_verse_ref rawB ABBR_MAP knownCanonAbbrsSet with
  | some a, some b =>
      if a ≠ b then
        if a ∈ knownVerses ∧ b ∈ knownVerses then addPair g a b
        else g
      else g
  | _, _ => g

/-- Python `s.split('\t')` (separator split keeping empty fields);
`cur` is the current field accumulated in reverse. -/
def splitTabAux : List Char → List Char → List String
  | [], cur => [⟨cur.reverse⟩]
  | c :: cs, cur =>
      if c = '\t' then (⟨cur.reverse⟩ : String) :: splitTabAux cs []
      else splitTabAux cs (c :: cur)

def splitTab (s : String) : List String := splitTabAux s.data []

/-- Process one line of the cross-reference file: skip comments and
blank lines, strip and split on tabs, and use the first two fields as a
citation pair. -/
def processLine (knownVerses : List String) (knownCanonAbbrsSet : List String)
    (g : List (String × List String)) (line : String) : List (String × List String) :=
  if line.data.head? = some '#' then g
  else if pyStrip line = "" then g
  else
    match splitTab (pyStrip line) with
    | rawA :: rawB :: _ => linkPair knownVerses knownCanonAbbrsSet g rawA rawB
    | _ => g

/-- Lexicographic comparison of character lists by code point, the
order Python `sorted` uses on strings. -/
def charListLe : List Char → List Char → Bool
  | [], _ => true
  | _ :: _, [] => false
  | a :: as, b :: bs =>
      if a.toNat < b.toNat then true
      else if b.toNat < a.toNat then false
      else charListLe as bs

def strLe (a b : String) : Bool := charListLe a.data b.data

/-- The comparison as a `Prop`-valued relation (for sorting). -/
def strLeRel (a b : String) : Prop := strLe a b = true

instance : DecidableRel strLeRel := fun a b => inferInstanceAs (Decidable (strLe a b = true))

/-- Model of Python `sorted` on a list of strings: any sorting
algorithm computes the same list, since sorting a list by a total
order determines the result up to equal elements. -/
def sortStrings (l : List String) : List String :=
  l.insertionSort strLeRel

/-- Step 5 finalization:
`{verse: sorted(list(refs_set)) for verse, refs_set in refs_intermediate.items()}`. -/
def sortAdjacency (g : List (String × List String)) : List (String × List String) :=
  g.map (fun p => (p.1, sortStrings p.2))

/-- Step 4 and 5 of the script on the lines of the cross-reference
file: fold the linking loop from an empty dict, then sort each
adjacency set. -/
def buildCrossRefs (knownVerses : List String) (knownCanonAbbrsSet : List String)
    (lines : List String) : List (String × List String) :=
  sortAdjacency (lines.foldl (processLine knownVerses knownCanonAbbrsSet) [])

/-- The three artifacts the run writes. -/
structure Outputs where
  meta : List BookMeta
  text : List (String × String)
  refs : List (String × List String)
deriving DecidableEq, Repr

/-- Steps 1 to 2 of the script: read the book-names document (fatal if
the file is absent or no names are read), read the USFX document (fatal
if the file is absent or holds no book elements), extract, and fail if
no Protestant book data was extracted.  `none` models a missing source
file. -/
def stage12 (bookNamesDoc : Option (List XmlNode)) (usfxBooks : Option (List XmlNode)) :
    Except String ExtractAcc :=
  match bookNamesDoc with
  | none => .error "BookNames source file not found"
  | some bns =>
      let nameDict := bns.foldl
        (fun d n =>
          match n.attr "code", n.attr "short" with
          | some c, some s => if c ≠ "" ∧ s ≠ "" then dictInsert d c s else d
          | _, _ => d) []
      if nameDict.isEmpty then .error "Failed to read book names from BookNames.xml"
      else
        match usfxBooks with
        | none => .error "USFX source file not found"
        | some books =>
            if books.isEmpty then .error "Could not find book elements in USFX."
            else
              let ex := extractBooks nameDict books
              if ex.metaList.isEmpty then .error "No Protestant book data extracted."
              else .ok ex

/-- The whole run: steps 1 to 5.  A missing cross-reference file
(`none`) is the non-fatal `FileNotFoundError` branch: the run completes
and writes an empty cross-reference graph. -/
def runPipeline (bookNamesDoc : Option (List XmlNode)) (usfxBooks : Option (List XmlNode))
    (crossRefLines : Option (List String)) : Except String Outputs :=
  match stage12 bookNamesDoc usfxBooks with
  | .error e => .error e
  | .ok ex =>
      let refs :=
        match crossRefLines with
        | none => []
        | some lines => buildCrossRefs (ex.text.map Prod.fst) ex.bookOrder lines
      .ok ⟨finalMetaList ex, ex.text, refs⟩

/-! Sample documents used by concrete counterexamples and witnesses. -/

/-- A verse-start marker with a tail text. -/
def sampleV (id tl : String) : XmlNode := .mk "v" [("id", id)] none [] (some tl)

/-- A verse-end marker. -/
def sampleVe : XmlNode := .mk "ve" [] none [] none

/-- A chapter marker. -/
def sampleC (id : String) : XmlNode := .mk "c" [("id", id)] none [] none

/-- A paragraph block. -/
def sampleP (cs : List XmlNode) : XmlNode := .mk "p" [] none cs none

/-- A book element with one chapter containing one verse. -/
def sampleBook1 (code text : String) : XmlNode :=
  .mk "book" [("id", code)] none [sampleC "1", sampleP [sampleV "1" text, sampleVe]] none

/-- A GEN book with chapter 1 holding verses 1 and 2 (the end-to-end
scenario of the specification). -/
def sampleGen2 : XmlNode :=
  .mk "book" [("id", "GEN")] none
    [sampleC "1",
     sampleP [sampleV "1" "In the beginning", sampleVe, sampleV "2" "And the earth", sampleVe]]
    none

/-- A book-names entry mapping GEN to Genesis. -/
def sampleNameElem : XmlNode := .mk "book" [("code", "GEN"), ("short", "Genesis")] none [] none

/-- Whether a metadata sequence is ordered by the canonical Protestant
canon order: its abbreviation sequence equals the canonical code list
restricted to the books present. -/
def inCanonicalOrder (ms : List BookMeta) : Prop :=
  PROTESTANT_CANON_CODES.filter (fun c => c ∈ ms.map BookMeta.book_abbr) =
    ms.map BookMeta.book_abbr

end Preprocess

namespace Preprocess

/-! Helper lemmas: association lists, set insertion, sorting. -/

/-- Keys of an association list of adjacency sets. -/
def keysOf {β : Type} (g : List (String × β)) : List String := g.map Prod.fst

theorem lookup_append {β : Type} (l₁ l₂ : List (String × β)) (k : String) :
    (l₁ ++ l₂).lookup k = ((l₁.lookup k).orElse (fun _ => l₂.lookup k)) := by
  induction l₁ with
  | nil => simp [List.lookup]
  | cons p t ih =>
      cases p with
      | mk a b =>
          by_cases h : k == a <;> simp [List.lookup, h, ih, Option.orElse]

theorem lookup_eq_none_iff {β : Type} (g : List (String × β)) (k : String) :
    g.lookup k = none ↔ k ∉ keysOf g := by
  induction g with
  | nil => simp [List.lookup, keysOf]
  | cons p t ih =>
      cases p with
      | mk a b =>
          by_cases h : k = a
          · subst h; simp [List.lookup, keysOf]
          · simp [List.lookup, keysOf, h, ih, beq_false_of_ne h]

theorem mem_of_lookup_eq_some {β : Type} {g : List (String × β)} {k : String} {l : β}
    (h : g.lookup k = some l) : (k, l) ∈ g := by
  induction g with
  | nil => simp [List.lookup] at h
  | cons p t ih =>
      cases p with
      | mk a b =>
          by_cases hk : k == a
          · simp [List.lookup, hk] at h
            subst h
            simp [eq_of_beq hk]
          · simp [List.lookup, hk] at h
            exact List.mem_cons_of_mem _ (ih h)

theorem lookup_of_mem_nodup {β : Type} {g : List (String × β)} {k : String} {l : β}
    (hnd : (keysOf g).Nodup) (h : (k, l) ∈ g) : g.lookup k = some l := by
  induction g with
  | nil => simp at h
  | cons p t ih =>
      cases p with
      | mk a b =>
          simp only [keysOf, List.map_cons, List.nodup_cons] at hnd
          rcases List.mem_cons.mp h with h1 | h1
          · cases h1
            simp [List.lookup]
          · have hka : k ≠ a := by
              rintro rfl
              exact hnd.1 (List.mem_map.mpr ⟨(k, l), h1, rfl⟩)
            simp [List.lookup, beq_false_of_ne hka]
            exact ih hnd.2 h1

theorem mem_insertSet {s : List String} {v x : String} :
    x ∈ insertSet s v ↔ x ∈ s ∨ x = v := by
  unfold insertSet
  split
  · next h => constructor
              · exact fun hx => Or.inl hx
              · rintro (hx | rfl) <;> assumption
  · simp [or_comm]

theorem mem_insertSet_self (s : List String) (v : String) : v ∈ insertSet s v := by
  simp [mem_insertSet]

theorem insertSet_ne_nil (s : List String) (v : String) : insertSet s v ≠ [] := by
  unfold insertSet
  split
  · next h => exact List.ne_nil_of_mem h
  · simp

theorem nodup_insertSet {s : List String} (v : String) (h : s.Nodup) :
    (insertSet s v).Nodup := by
  unfold insertSet
  split
  · exact h
  · next hv => simpa using List.Nodup.append h (by simp) (by simpa using hv)

theorem subset_insertSet (s : List String) (v : String) : s ⊆ insertSet s v := by
  intro x hx
  simp [mem_insertSet, hx]

theorem keysOf_map_fst {β : Type} (d : List (String × β)) (f : String × β → String × β)
    (hf : ∀ p, (f p).1 = p.1) : keysOf (d.map f) = keysOf d := by
  unfold keysOf
  rw [List.map_map]
  exact congrArg (fun g => List.map g d) (funext hf)

theorem mem_keysOf_dictInsert {d : List (String × String)} {k v x : String}
    (h : x ∈ keysOf (dictInsert d k v)) : x = k ∨ x ∈ keysOf d := by
  unfold dictInsert at h
  split at h
  · rw [keysOf_map_fst _ _ (fun p => by by_cases hp : p.1 = k <;> simp [hp])] at h
    exact Or.inr h
  · unfold keysOf at h ⊢
    rw [List.map_append] at h
    rcases List.mem_append.mp h with h1 | h1
    · exact Or.inr h1
    · simp at h1
      exact Or.inl h1

theorem lookup_setAdd_map_ne {g : List (String × List String)} {k v k' : String}
    (h : k' ≠ k) :
    (g.map (fun p => if p.1 = k then (p.1, insertSet p.2 v) else p)).lookup k' =
      g.lookup k' := by
  induction g with
  | nil => simp
  | cons p t ih =>
      cases p with
      | mk a b =>
          rw [List.map_cons]
          by_cases ha : a = k
          · subst ha
            have hhead : (if ((a, b) : String × List String).1 = a
                then ((a, b).1, insertSet (a, b).2 v) else (a, b)) = (a, insertSet b v) := by
              simp
            rw [hhead]
            simp [List.lookup, beq_false_of_ne h, ih]
          · have hhead : (if ((a, b) : String × List String).1 = k
                then ((a, b).1, insertSet (a, b).2 v) else (a, b)) = (a, b) := by
              simp [ha]
            rw [hhead]
            by_cases hk : k' = a
            · subst hk
              simp [List.lookup]
            · simp [List.lookup, beq_false_of_ne hk, ih]

theorem lookup_setAdd_map_self {g : List (String × List String)} {k v : String} {s : List String}
    (h : g.lookup k = some s) :
    (g.map (fun p => if p.1 = k then (p.1, insertSet p.2 v) else p)).lookup k =
      some (insertSet s v) := by
  induction g with
  | nil => simp [List.lookup] at h
  | cons p t ih =>
      cases p with
      | mk a b =>
          rw [List.map_cons]
          by_cases hk : k = a
          · subst hk
            simp [List.lookup] at h
            subst h
            have hhead : (if ((k, b) : String × List String).1 = k
                then ((k, b).1, insertSet (k, b).2 v) else (k, b)) = (k, insertSet b v) := by
              simp
            rw [hhead]
            simp [List.lookup]
          · simp [List.lookup, beq_false_of_ne hk] at h
            have ha : ¬ a = k := fun hc => hk hc.symm
            have hhead : (if ((a, b) : String × List String).1 = k
                then ((a, b).1, insertSet (a, b).2 v) else (a, b)) = (a, b) := by
              simp [ha]
            rw [hhead]
            simp [List.lookup, beq_false_of_ne hk, ih h]

theorem lookup_dictSetAdd_self (g : List (String × List String)) (k v : String) :
    (dictSetAdd g k v).lookup k = some (insertSet (adj g k) v) := by
  unfold dictSetAdd
  cases hg : g.lookup k with
  | some s =>
      simp only [hg]
      rw [lookup_setAdd_map_self hg]
      simp [adj, hg]
  | none =>
      simp only [hg]
      rw [lookup_append, hg]
      simp [adj, hg, List.lookup, Option.orElse, insertSet]

theorem lookup_dictSetAdd_ne (g : List (String × List String)) {k v k' : String}
    (h : k' ≠ k) : (dictSetAdd g k v).lookup k' = g.lookup k' := by
  unfold dictSetAdd
  cases hg : g.lookup k with
  | some s =>
      simp only
      exact lookup_setAdd_map_ne h
  | none =>
      simp only
      rw [lookup_append]
      simp [List.lookup, beq_false_of_ne h, Option.orElse]
      cases g.lookup k' <;> simp

theorem keysOf_dictSetAdd_nodup {g : List (String × List String)} {k v : String}
    (h : (keysOf g).Nodup) : (keysOf (dictSetAdd g k v)).Nodup := by
  unfold dictSetAdd
  cases hg : g.lookup k with
  | some s =>
      simp only
      rw [keysOf_map_fst _ _ (fun p => by by_cases hp : p.1 = k <;> simp [hp])]
      exact h
  | none =>
      simp only
      unfold keysOf at h ⊢
      rw [List.map_append]
      refine List.Nodup.append h (by simp) ?_
      intro x hx
      simp only [List.map_cons, List.map_nil, List.mem_singleton]
      rintro rfl
      exact ((lookup_eq_none_iff g x).mp hg) hx

/-! Lemmas on the lexicographic string comparison and sorting. -/

theorem charListLe_total : ∀ a b : List Char, charListLe a b = true ∨ charListLe b a = true
  | [], _ => Or.inl rfl
  | _ :: _, [] => Or.inr rfl
  | a :: as, b :: bs => by
      by_cases h1 : a.toNat < b.toNat
      · left
        simp [charListLe, h1]
      · by_cases h2 : b.toNat < a.toNat
        · right
          simp [charListLe, h2]
        · rcases charListLe_total as bs with h | h
          · left
            simp [charListLe, h1, h2, h]
          · right
            simp [charListLe, h1, h2, h]

theorem charListLe_trans :
    ∀ a b c : List Char, charListLe a b = true → charListLe b c = true →
      charListLe a c = true
  | [], _, _, _, _ => rfl
  | _ :: _, [], _, h1, _ => by simp [charListLe] at h1
  | _ :: _, _ :: _, [], _, h2 => by simp [charListLe] at h2
  | a :: as, b :: bs, c :: cs, h1, h2 => by
      simp only [charListLe] at h1 h2 ⊢
      split at h1
      · next hab =>
          split at h2
          · next hbc =>
              simp [show a.toNat < c.toNat from Nat.lt_trans hab hbc]
          · next hbc =>
              split at h2
              · exact absurd h2 (by simp)
              · next hcb =>
                  have hbc' : b.toNat = c.toNat := by omega
                  simp [show a.toNat < c.toNat from hbc' ▸ hab]
      · next hab =>
          split at h1
          · exact absurd h1 (by simp)
          · next hba =>
              have hab' : a.toNat = b.toNat := by omega
              split at h2
              · next hbc =>
                  simp [show a.toNat < c.toNat from hab' ▸ hbc]
              · next hbc =>
                  split at h2
                  · exact absurd h2 (by simp)
                  · next hcb =>
                      have hbc' : b.toNat = c.toNat := by omega
                      have hac : ¬ a.toNat < c.toNat := by omega
                      have hca : ¬ c.toNat < a.toNat := by omega
                      simp only [if_neg hac, if_neg hca]
                      exact charListLe_trans as bs cs h1 h2

instance : IsTotal String strLeRel :=
  ⟨fun a b => charListLe_total a.data b.data⟩

instance : IsTrans String strLeRel :=
  ⟨fun a b c h1 h2 => charListLe_trans a.data b.data c.data h1 h2⟩

theorem sortStrings_sorted (l : List String) : List.Sorted strLeRel (sortStrings l) :=
  List.sorted_insertionSort strLeRel l

theorem sortStrings_perm (l : List String) : (sortStrings l).Perm l :=
  List.perm_insertionSort strLeRel l

theorem mem_sortStrings {l : List String} {x : String} : x ∈ sortStrings l ↔ x ∈ l :=
  (sortStrings_perm l).mem_iff

theorem sortStrings_nodup {l : List String} (h : l.Nodup) : (sortStrings l).Nodup :=
  (sortStrings_perm l).symm.nodup h

theorem sortStrings_ne_nil {l : List String} (h : l ≠ []) : sortStrings l ≠ [] := by
  intro hcon
  have hp := sortStrings_perm l
  rw [hcon] at hp
  exact h hp.symm.eq_nil

/-! Decimal representations used in verse keys have no leading zeros. -/

theorem natDigitsAux_head (fuel : Nat) :
    ∀ (n : Nat) (acc : List Char), 1 ≤ n → n < 10 ^ fuel →
      ∃ c cs, natDigitsAux fuel n acc = c :: cs ∧ c ≠ '0' := by
  induction fuel with
  | zero =>
      intro n acc h1 h2
      simp [pow_zero] at h2
      omega
  | succ fuel ih =>
      intro n acc h1 h2
      unfold natDigitsAux
      by_cases h : n < 10
      · refine ⟨Nat.digitChar n, acc, by simp [h], ?_⟩
        interval_cases n <;> decide
      · rw [if_neg h]
        apply ih
        · exact (Nat.one_le_div_iff (by norm_num)).mpr (Nat.le_of_not_lt h)
        · rw [pow_succ] at h2
          exact (Nat.div_lt_iff_lt_mul (by norm_num)).mpr h2

theorem natRepr_head (n : Nat) (h : 1 ≤ n) :
    ∃ c cs, (natRepr n).data = c :: cs ∧ c ≠ '0' := by
  have h10 : n < 10 ^ (n + 1) :=
    lt_of_lt_of_le (Nat.lt_pow_self (by norm_num) n)
      (Nat.pow_le_pow_right (by norm_num) (Nat.le_succ n))
  exact natDigitsAux_head (n + 1) n [] h h10

theorem intRepr_pos_head {i : Int} (h : 0 < i) :
    ∃ c cs, (intRepr i).data = c :: cs ∧ c ≠ '0' := by
  unfold intRepr
  rw [if_neg (by omega : ¬ i < 0)]
  exact natRepr_head i.toNat (by omega)

theorem data_append (a b : String) : (a ++ b).data = a.data ++ b.data := by
  cases a
  cases b
  rfl

theorem verseKey_data (abbr : String) (c v : Int) :
    (verseKey abbr c v).data =
      abbr.data ++ ' ' :: ((intRepr c).data ++ ':' :: (intRepr v).data) := by
  unfold verseKey
  rw [data_append, data_append, data_append, data_append]
  simp [List.append_assoc]

theorem canon_len3 : ∀ a ∈ PROTESTANT_CANON_CODES, a.data.length = 3 := by decide

theorem verseKey_ne_gen01 {abbr : String} {c v : Int}
    (ha : abbr ∈ PROTESTANT_CANON_CODES) (hc : 0 < c) (_hv : 0 < v) :
    verseKey abbr c v ≠ "GEN 01:1" := by
  intro heq
  have hd : (verseKey abbr c v).data = "GEN 01:1".data := congrArg String.data heq
  rw [verseKey_data] at hd
  have htarget : ("GEN 01:1" : String).data =
      ['G', 'E', 'N'] ++ ' ' :: ('0' :: '1' :: ':' :: '1' :: []) := rfl
  rw [htarget] at hd
  have hsplit := List.append_inj hd (by simp [canon_len3 abbr ha])
  have htail := hsplit.2
  obtain ⟨c0, cs0, hc0, hc0ne⟩ := intRepr_pos_head hc
  rw [hc0] at htail
  simp only [List.cons_append] at htail
  injection htail with h1 htail2
  injection htail2 with h2 _
  exact hc0ne h2

/-! Shape of the keys the text extractor stores. -/

/-- Every key of the extracted verse-text dict is built from a canon
code and int-parsed positive chapter and verse numbers. -/
def keyShape (x : String) : Prop :=
  ∃ a c v, a ∈ PROTESTANT_CANON_CODES ∧ 0 < c ∧ 0 < v ∧ x = verseKey a c v

theorem flushVerse_keys {abbr : String} {chapter : Int} {st : InnerState}
    (ha : abbr ∈ PROTESTANT_CANON_CODES) (hch : 0 < chapter) (hcol : 0 < st.collecting)
    {x : String} (hx : x ∈ keysOf (flushVerse abbr chapter st)) :
    x ∈ keysOf st.text ∨ keyShape x := by
  unfold flushVerse at hx
  split at hx
  · rcases mem_keysOf_dictInsert hx with h | h
    · exact Or.inr ⟨abbr, chapter, st.collecting, ha, hch, hcol, h⟩
    · exact Or.inl h
  · exact Or.inl hx

theorem stepInner_text (abbr : String) (chapter : Int) (st : InnerState) (n : XmlNode) :
    (stepInner abbr chapter st n).text = st.text ∨
      (0 < st.collecting ∧ (stepInner abbr chapter st n).text = flushVerse abbr chapter st) := by
  unfold stepInner
  split
  · cases pyInt (n.attr "id") with
    | some newV =>
        simp only
        by_cases hcol : st.collecting > 0
        · rw [if_pos hcol]
          split <;> exact Or.inr ⟨hcol, rfl⟩
        · rw [if_neg hcol]
          split <;> exact Or.inl rfl
    | none => exact Or.inl rfl
  · split
    · simp only
      by_cases hcol : st.collecting > 0
      · rw [if_pos hcol]
        exact Or.inr ⟨hcol, rfl⟩
      · rw [if_neg hcol]
        exact Or.inl rfl
    · split
      · exact Or.inl rfl
      · exact Or.inl rfl

theorem stepInner_keys {abbr : String} {chapter : Int} {st : InnerState} {n : XmlNode}
    (ha : abbr ∈ PROTESTANT_CANON_CODES) (hch : 0 < chapter) {x : String}
    (hx : x ∈ keysOf (stepInner abbr chapter st n).text) :
    x ∈ keysOf st.text ∨ keyShape x := by
  rcases stepInner_text abbr chapter st n with h | ⟨hcol, h⟩
  · rw [h] at hx
    exact Or.inl hx
  · rw [h] at hx
    exact flushVerse_keys ha hch hcol hx

theorem foldInner_keys {abbr : String} {chapter : Int}
    (ha : abbr ∈ PROTESTANT_CANON_CODES) (hch : 0 < chapter) :
    ∀ (nodes : List XmlNode) (st : InnerState) (x : String),
      x ∈ keysOf (nodes.foldl (stepInner abbr chapter) st).text →
      x ∈ keysOf st.text ∨ keyShape x := by
  intro nodes
  induction nodes with
  | nil => intro st x hx; exact Or.inl hx
  | cons n rest ih =>
      intro st x hx
      rcases ih (stepInner abbr chapter st n) x hx with h | h
      · exact stepInner_keys ha hch h
      · exact Or.inr h

theorem processBlockChild_keys {abbr : String} {chapter lastVerse : Int}
    {text : List (String × String)} {n : XmlNode}
    (ha : abbr ∈ PROTESTANT_CANON_CODES) (hch : 0 < chapter) {x : String}
    (hx : x ∈ keysOf (processBlockChild abbr chapter lastVerse text n).2) :
    x ∈ keysOf text ∨ keyShape x := by
  unfold processBlockChild at hx
  exact foldInner_keys ha hch n.preorder _ x hx

theorem processBookChildren_keys {abbr : String} (ha : abbr ∈ PROTESTANT_CANON_CODES) :
    ∀ (cs : List XmlNode) (st : BookState) (x : String),
      x ∈ keysOf (processBookChildren abbr st cs).text →
      x ∈ keysOf st.text ∨ keyShape x := by
  intro cs
  induction cs with
  | nil => intro st x hx; exact Or.inl hx
  | cons n rest ih =>
      intro st x hx
      rw [processBookChildren] at hx
      dsimp only at hx
      split at hx
      · split at hx
        · have h2 := ih _ x hx
          exact h2
        · exact Or.inl hx
      · split at hx
        · next hcur =>
            rcases ih _ x hx with h | h
            · rcases processBlockChild_keys ha hcur h with h2 | h2
              · exact Or.inl h2
              · exact Or.inr h2
            · exact Or.inr h
        · exact ih _ x hx

theorem processBook_keys {nd : List (String × String)} {acc : ExtractAcc} {b : XmlNode}
    {x : String} (hx : x ∈ keysOf (processBook nd acc b).text) :
    x ∈ keysOf acc.text ∨ keyShape x := by
  unfold processBook at hx
  split at hx
  · exact Or.inl hx
  · next abbr heq =>
      split at hx
      · exact Or.inl hx
      · split at hx
        · exact Or.inl hx
        · next hmem =>
            have ha : abbr ∈ PROTESTANT_CANON_CODES := not_not.mp hmem
            dsimp only at hx
            split at hx <;>
              exact processBookChildren_keys ha b.children _ x (by exact hx)

theorem foldBooks_keys {nd : List (String × String)} :
    ∀ (books : List XmlNode) (acc : ExtractAcc) (x : String),
      x ∈ keysOf (books.foldl (processBook nd) acc).text →
      x ∈ keysOf acc.text ∨ keyShape x := by
  intro books
  induction books with
  | nil => intro acc x hx; exact Or.inl hx
  | cons b rest ih =>
      intro acc x hx
      rcases ih (processBook nd acc b) x hx with h | h
      · exact processBook_keys h
      · exact Or.inr h

theorem extract_keyShape {nd : List (String × String)} {books : List XmlNode} {x : String}
    (hx : x ∈ keysOf (extractBooks nd books).text) : keyShape x := by
  rcases foldBooks_keys books ⟨[], [], []⟩ x hx with h | h
  · simp [keysOf] at h
  · exact h

theorem extract_no_gen01 (nd : List (String × String)) (books : List XmlNode) :
    "GEN 01:1" ∉ keysOf (extractBooks nd books).text := by
  intro hx
  obtain ⟨a, c, v, ha, hc, hv, heq⟩ := extract_keyShape hx
  exact verseKey_ne_gen01 ha hc hv heq.symm

/-! Invariants of `book_order` and `bible_meta_list`. -/

theorem processBook_bookOrder (nd : List (String × String)) (acc : ExtractAcc) (b : XmlNode) :
    (processBook nd acc b).bookOrder = acc.bookOrder ∨
      ∃ abbr, abbr ∈ PROTESTANT_CANON_CODES ∧
        (processBook nd acc b).bookOrder = acc.bookOrder ++ [abbr] := by
  unfold processBook
  split
  · exact Or.inl rfl
  · next abbr heq =>
      split
      · exact Or.inl rfl
      · split
        · exact Or.inl rfl
        · next hmem =>
            dsimp only
            split <;>
              exact Or.inr ⟨abbr, not_not.mp hmem, rfl⟩

theorem foldBooks_order_canon {nd : List (String × String)} :
    ∀ (books : List XmlNode) (acc : ExtractAcc),
      (∀ c ∈ acc.bookOrder, c ∈ PROTESTANT_CANON_CODES) →
      ∀ c ∈ (books.foldl (processBook nd) acc).bookOrder, c ∈ PROTESTANT_CANON_CODES := by
  intro books
  induction books with
  | nil => intro acc hacc; exact hacc
  | cons b rest ih =>
      intro acc hacc
      apply ih
      rcases processBook_bookOrder nd acc b with h | ⟨abbr, habbr, h⟩
      · rw [h]; exact hacc
      · rw [h]
        intro c hc
        rcases List.mem_append.mp hc with h1 | h1
        · exact hacc c h1
        · rw [List.mem_singleton.mp h1]; exact habbr

theorem extract_order_canon (nd : List (String × String)) (books : List XmlNode) :
    ∀ c ∈ (extractBooks nd books).bookOrder, c ∈ PROTESTANT_CANON_CODES := by
  apply foldBooks_order_canon
  intro c hc
  simp at hc

theorem processBook_meta_sublist {nd : List (String × String)} {acc : ExtractAcc} {b : XmlNode}
    (h : (acc.metaList.map BookMeta.book_abbr).Sublist acc.bookOrder) :
    ((processBook nd acc b).metaList.map BookMeta.book_abbr).Sublist
      (processBook nd acc b).bookOrder := by
  unfold processBook
  split
  · exact h
  · next abbr heq =>
      split
      · exact h
      · split
        · exact h
        · dsimp only
          split
          · rw [List.map_append]
            exact List.Sublist.append h (by simp)
          · exact h.trans (List.sublist_append_left acc.bookOrder [abbr])

theorem foldBooks_meta_sublist {nd : List (String × String)} :
    ∀ (books : List XmlNode) (acc : ExtractAcc),
      (acc.metaList.map BookMeta.book_abbr).Sublist acc.bookOrder →
      (((books.foldl (processBook nd) acc).metaList.map BookMeta.book_abbr).Sublist
        (books.foldl (processBook nd) acc).bookOrder) := by
  intro books
  induction books with
  | nil => intro acc hacc; exact hacc
  | cons b rest ih =>
      intro acc hacc
      exact ih (processBook nd acc b) (processBook_meta_sublist hacc)

theorem extract_meta_sublist (nd : List (String × String)) (books : List XmlNode) :
    (((extractBooks nd books).metaList.map BookMeta.book_abbr).Sublist
      (extractBooks nd books).bookOrder) := by
  apply foldBooks_meta_sublist
  simp

/-! Lemmas for the ordering of the final metadata list. -/

theorem map_abbr_metasFor (ms : List BookMeta) (c : String) :
    (metasFor ms c).map BookMeta.book_abbr =
      (ms.map BookMeta.book_abbr).filter (fun x => x = c) := by
  induction ms with
  | nil => rfl
  | cons m t ih =>
      by_cases h : m.book_abbr = c
      · simp [metasFor, List.filter, h] at ih ⊢
        exact ih
      · simp [metasFor, List.filter, h] at ih ⊢
        exact ih

theorem filter_eq_of_nodup (al : List String) (c : String) (h : al.Nodup) :
    al.filter (fun x => x = c) = if c ∈ al then [c] else [] := by
  induction al with
  | nil => simp
  | cons a t ih =>
      rw [List.nodup_cons] at h
      by_cases hac : a = c
      · subst hac
        have hct : a ∉ t := h.1
        simp [List.filter, ih h.2, hct]
      · have hca : ¬ c = a := fun hc => hac hc.symm
        simp [List.filter, hac, hca, ih h.2]

theorem flatMap_filter_mem (al : List String) (hnd : al.Nodup) :
    ∀ order : List String,
      (order.flatMap (fun c => al.filter (fun x => x = c))) =
        order.filter (fun c => c ∈ al) := by
  intro order
  induction order with
  | nil => rfl
  | cons c rest ih =>
      rw [List.flatMap_cons, ih, filter_eq_of_nodup al c hnd]
      by_cases hc : c ∈ al
      · simp [List.filter, hc]
      · simp [List.filter, hc]

/-! Invariant of the cross-reference graph construction. -/

/-- All invariants of the intermediate (and final) cross-reference
dict: unique keys, keys and members are known verses, adjacency sets
are nonempty duplicate-free and self-reference-free, and the graph is
symmetric. -/
structure GraphInv (known : List String) (g : List (String × List String)) : Prop where
  keysNodup : (keysOf g).Nodup
  keyKnown : ∀ k l, g.lookup k = some l → k ∈ known
  adjNe : ∀ k l, g.lookup k = some l → l ≠ []
  adjNodup : ∀ k l, g.lookup k = some l → l.Nodup
  adjKnown : ∀ k l b, g.lookup k = some l → b ∈ l → b ∈ known
  adjNoSelf : ∀ k l b, g.lookup k = some l → b ∈ l → b ≠ k
  adjSymm : ∀ k l b, g.lookup k = some l → b ∈ l → ∃ lb, g.lookup b = some lb ∧ k ∈ lb

theorem graphInv_nil (known : List String) : GraphInv known [] := by
  refine ⟨by simp [keysOf], ?_, ?_, ?_, ?_, ?_, ?_⟩ <;>
    intro k l <;> simp [List.lookup]

theorem mem_adj {g : List (String × List String)} {k x : String} (h : x ∈ adj g k) :
    ∃ l, g.lookup k = some l ∧ x ∈ l := by
  unfold adj at h
  cases hg : g.lookup k with
  | none => rw [hg] at h; simp at h
  | some l => rw [hg] at h; exact ⟨l, rfl, h⟩

theorem adj_nodup_of_inv {known : List String} {g : List (String × List String)}
    (inv : GraphInv known g) (k : String) : (adj g k).Nodup := by
  unfold adj
  cases hg : g.lookup k with
  | none => simp
  | some l => exact inv.adjNodup _ _ hg

theorem adj_dictSetAdd_ne (g : List (String × List String)) {k v k' : String} (h : k' ≠ k) :
    adj (dictSetAdd g k v) k' = adj g k' := by
  unfold adj
  rw [lookup_dictSetAdd_ne g h]

theorem lookup_addPair_fst {g : List (String × List String)} {a b : String} (hab : a ≠ b) :
    (addPair g a b).lookup a = some (insertSet (adj g a) b) := by
  unfold addPair
  rw [lookup_dictSetAdd_ne _ hab, lookup_dictSetAdd_self]

theorem lookup_addPair_snd {g : List (String × List String)} {a b : String} (hab : a ≠ b) :
    (addPair g a b).lookup b = some (insertSet (adj g b) a) := by
  unfold addPair
  rw [lookup_dictSetAdd_self, adj_dictSetAdd_ne g (Ne.symm hab)]

theorem lookup_addPair_other {g : List (String × List String)} {a b x : String}
    (hxa : x ≠ a) (hxb : x ≠ b) : (addPair g a b).lookup x = g.lookup x := by
  unfold addPair
  rw [lookup_dictSetAdd_ne _ hxb, lookup_dictSetAdd_ne _ hxa]

theorem graphInv_addPair {known : List String} {g : List (String × List String)}
    {a b : String} (inv : GraphInv known g) (hab : a ≠ b)
    (haK : a ∈ known) (hbK : b ∈ known) : GraphInv known (addPair g a b) := by
  constructor
  · exact keysOf_dictSetAdd_nodup (keysOf_dictSetAdd_nodup inv.keysNodup)
  · intro k l hl
    by_cases hkb : k = b
    · rw [hkb]
      exact hbK
    · by_cases hka : k = a
      · rw [hka]
        exact haK
      · rw [lookup_addPair_other hka hkb] at hl
        exact inv.keyKnown _ _ hl
  · intro k l hl
    by_cases hkb : k = b
    · rw [hkb, lookup_addPair_snd hab] at hl
      cases hl
      exact insertSet_ne_nil _ _
    · by_cases hka : k = a
      · rw [hka, lookup_addPair_fst hab] at hl
        cases hl
        exact insertSet_ne_nil _ _
      · rw [lookup_addPair_other hka hkb] at hl
        exact inv.adjNe _ _ hl
  · intro k l hl
    by_cases hkb : k = b
    · rw [hkb, lookup_addPair_snd hab] at hl
      cases hl
      exact nodup_insertSet _ (adj_nodup_of_inv inv b)
    · by_cases hka : k = a
      · rw [hka, lookup_addPair_fst hab] at hl
        cases hl
        exact nodup_insertSet _ (adj_nodup_of_inv inv a)
      · rw [lookup_addPair_other hka hkb] at hl
        exact inv.adjNodup _ _ hl
  · intro k l c hl hc
    by_cases hkb : k = b
    · rw [hkb, lookup_addPair_snd hab] at hl
      cases hl
      rcases mem_insertSet.mp hc with h | h
      · obtain ⟨lb, hlb, hmem⟩ := mem_adj h
        exact inv.adjKnown _ _ _ hlb hmem
      · rw [h]
        exact haK
    · by_cases hka : k = a
      · rw [hka, lookup_addPair_fst hab] at hl
        cases hl
        rcases mem_insertSet.mp hc with h | h
        · obtain ⟨lb, hlb, hmem⟩ := mem_adj h
          exact inv.adjKnown _ _ _ hlb hmem
        · rw [h]
          exact hbK
      · rw [lookup_addPair_other hka hkb] at hl
        exact inv.adjKnown _ _ _ hl hc
  · intro k l c hl hc
    by_cases hkb : k = b
    · rw [hkb, lookup_addPair_snd hab] at hl
      cases hl
      rw [hkb]
      rcases mem_insertSet.mp hc with h | h
      · obtain ⟨lb, hlb, hmem⟩ := mem_adj h
        exact inv.adjNoSelf _ _ _ hlb hmem
      · rw [h]
        exact hab
    · by_cases hka : k = a
      · rw [hka, lookup_addPair_fst hab] at hl
        cases hl
        rw [hka]
        rcases mem_insertSet.mp hc with h | h
        · obtain ⟨lb, hlb, hmem⟩ := mem_adj h
          exact inv.adjNoSelf _ _ _ hlb hmem
        · rw [h]
          exact Ne.symm hab
      · rw [lookup_addPair_other hka hkb] at hl
        exact inv.adjNoSelf _ _ _ hl hc
  · intro k l c hl hc
    by_cases hkb : k = b
    · rw [hkb, lookup_addPair_snd hab] at hl
      cases hl
      rw [hkb]
      rcases mem_insertSet.mp hc with h | h
      · obtain ⟨lb, hlb, hmem⟩ := mem_adj h
        obtain ⟨lc, hlc, hbin⟩ := inv.adjSymm _ _ _ hlb hmem
        have hcb : c ≠ b := inv.adjNoSelf _ _ _ hlb hmem
        by_cases hca : c = a
        · refine ⟨insertSet (adj g a) b, ?_, mem_insertSet_self _ _⟩
          rw [hca, lookup_addPair_fst hab]
        · exact ⟨lc, by rw [lookup_addPair_other hca hcb]; exact hlc, hbin⟩
      · refine ⟨insertSet (adj g a) b, ?_, mem_insertSet_self _ _⟩
        rw [h, lookup_addPair_fst hab]
    · by_cases hka : k = a
      · rw [hka, lookup_addPair_fst hab] at hl
        cases hl
        rw [hka]
        rcases mem_insertSet.mp hc with h | h
        · obtain ⟨lb, hlb, hmem⟩ := mem_adj h
          obtain ⟨lc, hlc, hain⟩ := inv.adjSymm _ _ _ hlb hmem
          have hca : c ≠ a := inv.adjNoSelf _ _ _ hlb hmem
          by_cases hcb : c = b
          · refine ⟨insertSet (adj g b) a, ?_, mem_insertSet_self _ _⟩
            rw [hcb, lookup_addPair_snd hab]
          · exact ⟨lc, by rw [lookup_addPair_other hca hcb]; exact hlc, hain⟩
        · refine ⟨insertSet (adj g b) a, ?_, mem_insertSet_self _ _⟩
          rw [h, lookup_addPair_snd hab]
      · rw [lookup_addPair_other hka hkb] at hl
        obtain ⟨lc, hlc, hkin⟩ := inv.adjSymm _ _ _ hl hc
        by_cases hca : c = a
        · refine ⟨insertSet (adj g a) b, ?_, ?_⟩
          · rw [hca, lookup_addPair_fst hab]
          · apply subset_insertSet
            unfold adj
            rw [← hca, hlc]
            exact hkin
        · by_cases hcb : c = b
          · refine ⟨insertSet (adj g b) a, ?_, ?_⟩
            · rw [hcb, lookup_addPair_snd hab]
            · apply subset_insertSet
              unfold adj
              rw [← hcb, hlc]
              exact hkin
          · exact ⟨lc, by rw [lookup_addPair_other hca hcb]; exact hlc, hkin⟩

theorem linkPair_cases (known canon : List String) (g : List (String × List String))
    (rawA rawB : String) :
    linkPair known canon g rawA rawB = g ∨
      ∃ a b, a ≠ b ∧ a ∈ known ∧ b ∈ known ∧
        linkPair known canon g rawA rawB = addPair g a b := by
  unfold linkPair
  split
  · split
    · next hne =>
        split
        · next hmem => exact Or.inr ⟨_, _, hne, hmem.1, hmem.2, rfl⟩
        · exact Or.inl rfl
    · exact Or.inl rfl
  · exact Or.inl rfl

theorem processLine_cases (known canon : List String) (g : List (String × List String))
    (line : String) :
    processLine known canon g line = g ∨
      ∃ a b, a ≠ b ∧ a ∈ known ∧ b ∈ known ∧
        processLine known canon g line = addPair g a b := by
  unfold processLine
  split
  · exact Or.inl rfl
  · split
    · exact Or.inl rfl
    · split
      · exact linkPair_cases known canon g _ _
      · exact Or.inl rfl

theorem graphInv_processLine {known : List String} (canon : List String)
    {g : List (String × List String)} (inv : GraphInv known g) (line : String) :
    GraphInv known (processLine known canon g line) := by
  rcases processLine_cases known canon g line with h | ⟨a, b, hne, haK, hbK, h⟩
  · rw [h]
    exact inv
  · rw [h]
    exact graphInv_addPair inv hne haK hbK

theorem graphInv_foldLines (known canon : List String) :
    ∀ (lines : List String) (g : List (String × List String)), GraphInv known g →
      GraphInv known (lines.foldl (processLine known canon) g) := by
  intro lines
  induction lines with
  | nil => intro g hg; exact hg
  | cons line rest ih =>
      intro g hg
      exact ih _ (graphInv_processLine canon hg line)

theorem lookup_sortAdjacency (g : List (String × List String)) (k : String) :
    (sortAdjacency g).lookup k = (g.lookup k).map sortStrings := by
  induction g with
  | nil => simp [sortAdjacency, List.lookup]
  | cons p t ih =>
      cases p with
      | mk a l =>
          by_cases hk : k = a
          · subst hk
            simp [sortAdjacency, List.lookup]
          · simp [sortAdjacency, List.lookup, beq_false_of_ne hk] at ih ⊢
            exact ih

/-- The invariants transfer from the intermediate dict to the
final sorted graph. -/
theorem graphInv_sortAdjacency {known : List String} {g : List (String × List String)}
    (inv : GraphInv known g) : GraphInv known (sortAdjacency g) := by
  constructor
  · rw [show keysOf (sortAdjacency g) = keysOf g from keysOf_map_fst _ _ (fun p => rfl)]
    exact inv.keysNodup
  · intro k l hl
    rw [lookup_sortAdjacency] at hl
    obtain ⟨l0, hl0, _⟩ := Option.map_eq_some'.mp hl
    exact inv.keyKnown _ _ hl0
  · intro k l hl
    rw [lookup_sortAdjacency] at hl
    obtain ⟨l0, hl0, hs⟩ := Option.map_eq_some'.mp hl
    rw [← hs]
    exact sortStrings_ne_nil (inv.adjNe _ _ hl0)
  · intro k l hl
    rw [lookup_sortAdjacency] at hl
    obtain ⟨l0, hl0, hs⟩ := Option.map_eq_some'.mp hl
    rw [← hs]
    exact sortStrings_nodup (inv.adjNodup _ _ hl0)
  · intro k l c hl hc
    rw [lookup_sortAdjacency] at hl
    obtain ⟨l0, hl0, hs⟩ := Option.map_eq_some'.mp hl
    rw [← hs] at hc
    exact inv.adjKnown _ _ _ hl0 (mem_sortStrings.mp hc)
  · intro k l c hl hc
    rw [lookup_sortAdjacency] at hl
    obtain ⟨l0, hl0, hs⟩ := Option.map_eq_some'.mp hl
    rw [← hs] at hc
    exact inv.adjNoSelf _ _ _ hl0 (mem_sortStrings.mp hc)
  · intro k l c hl hc
    rw [lookup_sortAdjacency] at hl
    obtain ⟨l0, hl0, hs⟩ := Option.map_eq_some'.mp hl
    rw [← hs] at hc
    obtain ⟨lc, hlc, hkin⟩ := inv.adjSymm _ _ _ hl0 (mem_sortStrings.mp hc)
    refine ⟨sortStrings lc, ?_, mem_sortStrings.mpr hkin⟩
    rw [lookup_sortAdjacency, hlc]
    rfl

theorem buildCrossRefs_graphInv (known canon : List String) (lines : List String) :
    GraphInv known (buildCrossRefs known canon lines) := by
  unfold buildCrossRefs
  exact graphInv_sortAdjacency (graphInv_foldLines known canon lines [] (graphInv_nil known))

theorem buildCrossRefs_sorted (known canon : List String) (lines : List String)
    (k : String) (l : List String)
    (hl : (buildCrossRefs known canon lines).lookup k = some l) :
    List.Sorted strLeRel l := by
  unfold buildCrossRefs at hl
  rw [lookup_sortAdjacency] at hl
  obtain ⟨l0, _, hs⟩ := Option.map_eq_some'.mp hl
  rw [← hs]
  exact sortStrings_sorted l0

/-! Claim theorems. -/

/-- Claim C1, counterexample: a source document presenting EXO before
GEN yields a final metadata sequence in document order EXO, GEN, which
is not the canonical Protestant canon order; so the final sequence is
not reordered canonically regardless of source-document order. -/
theorem C1_counterexample :
    ((finalMetaList (extractBooks []
        [sampleBook1 "EXO" "These are the names",
         sampleBook1 "GEN" "In the beginning"])).map BookMeta.book_abbr = ["EXO", "GEN"]) ∧
    ¬ inCanonicalOrder (finalMetaList (extractBooks []
        [sampleBook1 "EXO" "These are the names",
         sampleBook1 "GEN" "In the beginning"])) := by
  constructor
  · decide
  · unfold inCanonicalOrder
    decide

/-- Claim C1 (amended): the final per-book metadata sequence follows
the order in which admitted books appear in the source document (the
order of `book_order`), not the fixed canonical canon order: when the
processed book codes are distinct, the abbreviation sequence of the
final metadata list equals `book_order` restricted to the books that
produced a metadata entry. -/
theorem C1_meta_follows_document_order (nd : List (String × String)) (books : List XmlNode)
    (h : (extractBooks nd books).bookOrder.Nodup) :
    (finalMetaList (extractBooks nd books)).map BookMeta.book_abbr =
      (extractBooks nd books).bookOrder.filter
        (fun c => c ∈ (extractBooks nd books).metaList.map BookMeta.book_abbr) := by
  have hnd : ((extractBooks nd books).metaList.map BookMeta.book_abbr).Nodup :=
    (extract_meta_sublist nd books).nodup h
  unfold finalMetaList
  rw [List.map_flatMap]
  rw [show (fun c => (metasFor (extractBooks nd books).metaList c).map BookMeta.book_abbr) =
      (fun c => ((extractBooks nd books).metaList.map BookMeta.book_abbr).filter
        (fun x => x = c)) from funext (fun c => map_abbr_metasFor _ c)]
  exact flatMap_filter_mem _ hnd _

/-- Claim C1, witness instantiation of the amended statement. -/
theorem C1_witness :
    (extractBooks [] [sampleBook1 "EXO" "These are the names",
        sampleBook1 "GEN" "In the beginning"]).bookOrder.Nodup ∧
    (finalMetaList (extractBooks [] [sampleBook1 "EXO" "These are the names",
        sampleBook1 "GEN" "In the beginning"])).map BookMeta.book_abbr =
      (extractBooks [] [sampleBook1 "EXO" "These are the names",
        sampleBook1 "GEN" "In the beginning"]).bookOrder.filter
        (fun c => c ∈ (extractBooks [] [sampleBook1 "EXO" "These are the names",
          sampleBook1 "GEN" "In the beginning"]).metaList.map BookMeta.book_abbr) :=
  ⟨by decide, C1_meta_follows_document_order _ _ (by decide)⟩

/-- Claim C2, counterexample: with only GEN extracted, the token
`Rom.1.1` resolves through the abbreviation table to the canonical
code ROM (one of the 66), yet standardization rejects it, because the
known set used is the run-dependent `set(book_order)` rather than the
fixed 66-entry canon set. -/
theorem C2_counterexample :
    (extractBooks [] [sampleBook1 "GEN" "In the beginning"]).bookOrder = ["GEN"] ∧
    ABBR_MAP.lookup "Rom" = some "ROM" ∧
    "ROM" ∈ PROTESTANT_CANON_CODES ∧
    standardize_verse_ref "Rom.1.1" ABBR_MAP
      (extractBooks [] [sampleBook1 "GEN" "In the beginning"]).bookOrder = none := by
  refine ⟨by decide, by decide, by decide, by decide⟩

/-- Claim C2 (amended): acceptability of a citation token is decided
against the set of book codes actually recorded from the scripture
document (`book_order`), not the fixed 66-entry canon set: every
accepted token's resolved book code belongs to the known set that was
passed in, so acceptance is not independent of which books were
extracted. -/
theorem C2_accepted_code_in_known_set (S : List String) (ref out : String)
    (h : standardize_verse_ref ref ABBR_MAP S = some out) :
    ∃ c chapter verse, c ∈ S ∧ out = c ++ " " ++ chapter ++ ":" ++ verse := by
  unfold standardize_verse_ref at h
  split at h
  · exact absurd h (by simp)
  · next bookRaw chapter verse heq =>
      dsimp only at h
      split at h
      · next canonAbbr hlk =>
          split at h
          · next hcond =>
              cases h
              exact ⟨canonAbbr, chapter, verse, hcond.2, rfl⟩
          · split at h
            · next hdir =>
                cases h
                exact ⟨pyStrip bookRaw, chapter, verse, hdir, rfl⟩
            · split at h
              · next hup =>
                  cases h
                  exact ⟨pyUpper (pyStrip bookRaw), chapter, verse, hup, rfl⟩
              · exact absurd h (by simp)
      · split at h
        · next hdir =>
            cases h
            exact ⟨pyStrip bookRaw, chapter, verse, hdir, rfl⟩
        · split at h
          · next hup =>
              cases h
              exact ⟨pyUpper (pyStrip bookRaw), chapter, verse, hup, rfl⟩
          · exact absurd h (by simp)

/-- Claim C2, witness instantiation of the amended statement. -/
theorem C2_witness :
    (standardize_verse_ref "Gen.1.1" ABBR_MAP ["GEN"] = some "GEN 1:1") ∧
    ∃ c chapter verse, c ∈ ["GEN"] ∧ ("GEN 1:1" : String) = c ++ " " ++ chapter ++ ":" ++ verse :=
  ⟨by decide, C2_accepted_code_in_known_set ["GEN"] "Gen.1.1" "GEN 1:1" (by decide)⟩

/-- Claim C3, counterexample: a verse-start marker whose id fails to
parse, met while verse 1 is being collected with nonempty buffered
text, does not flush the previous verse (the text dict stays empty);
the source parses the id before the flush, so the buffered text is
lost rather than stored under GEN 1:1. -/
theorem C3_counterexample :
    stepInner "GEN" 1 ⟨1, "In the beginning ", 1, []⟩
        (XmlNode.mk "v" [("id", "x")] none [] none) =
      ⟨0, "In the beginning ", 1, []⟩ ∧
    cleanText "In the beginning " = "In the beginning" := by
  refine ⟨by decide, by decide⟩

/-- Claim C3 (amended): on a verse-start marker the new verse id is
parsed first; the previous verse's buffer is flushed only when that
parse succeeds.  When the parse fails, the state merely clears the
collecting cursor and no flush happens. -/
theorem C3_flush_only_after_parse (abbr : String) (chapter : Int) (st : InnerState)
    (n : XmlNode) (htag : n.tag = "v") :
    (pyInt (n.attr "id") = none → stepInner abbr chapter st n = { st with collecting := 0 }) ∧
    (∀ newV, pyInt (n.attr "id") = some newV → 0 < st.collecting →
      (stepInner abbr chapter st n).text = flushVerse abbr chapter st) := by
  constructor
  · intro hparse
    unfold stepInner
    rw [if_pos htag, hparse]
  · intro newV hparse hcol
    unfold stepInner
    rw [if_pos htag, hparse]
    dsimp only
    rw [if_pos hcol]
    split <;> rfl

/-- Claim C3, witness instantiation of the amended statement. -/
theorem C3_witness :
    stepInner "GEN" 1 ⟨1, "In the beginning ", 1, []⟩
        (XmlNode.mk "v" [("id", "x")] none [] none) =
      { (⟨1, "In the beginning ", 1, []⟩ : InnerState) with collecting := 0 } :=
  (C3_flush_only_after_parse "GEN" 1 ⟨1, "In the beginning ", 1, []⟩
      (XmlNode.mk "v" [("id", "x")] none [] none) rfl).1 rfl

/-- Claim C4, counterexample: while collecting, a character-run node
(`char`) carrying literal text contributes nothing to the verse
buffer, whereas a word-run node (`w`) with the same text does; the
source only appends text of `w` nodes. -/
theorem C4_counterexample :
    stepInner "GEN" 1 ⟨1, "", 1, []⟩ (XmlNode.mk "char" [] (some "earth") [] none) =
      ⟨1, "", 1, []⟩ ∧
    stepInner "GEN" 1 ⟨1, "", 1, []⟩ (XmlNode.mk "w" [] (some "earth") [] none) =
      ⟨1, "earth ", 1, []⟩ := by
  refine ⟨by decide, by decide⟩

/-- Claim C4 (amended): while a verse is being collected, only a
word-run (`w`) node's literal text is appended to the buffer (followed
by a space); a character-run (`char`) node's literal text is ignored
(only its trailing tail text would be appended). -/
theorem C4_only_word_run_text_appended (abbr : String) (chapter : Int) (st : InnerState)
    (hcol : 0 < st.collecting) :
    (∀ attrs t cs, stepInner abbr chapter st (XmlNode.mk "char" attrs (some t) cs none) = st) ∧
    (∀ attrs t cs, pyStrip t ≠ "" →
      stepInner abbr chapter st (XmlNode.mk "w" attrs (some t) cs none) =
        { st with buffer := st.buffer ++ pyStrip t ++ " " }) := by
  constructor
  · intro attrs t cs
    unfold stepInner
    simp [XmlNode.tag, XmlNode.text, XmlNode.tail, truthy, hcol]
  · intro attrs t cs hne
    have htne : t ≠ "" := by
      intro hcon
      rw [hcon] at hne
      exact hne rfl
    unfold stepInner
    simp [XmlNode.tag, XmlNode.text, XmlNode.tail, truthy, hcol, hne,
      show t.data.isEmpty = false from by
        cases ht : t.data with
        | nil => exact absurd (congrArg String.mk ht) (by simpa using htne)
        | cons c cs2 => rfl]

/-- Claim C4, witness instantiation of the amended statement. -/
theorem C4_witness :
    stepInner "GEN" 1 ⟨1, "", 1, []⟩ (XmlNode.mk "char" [] (some "earth") [] none) =
      (⟨1, "", 1, []⟩ : InnerState) :=
  (C4_only_word_run_text_appended "GEN" 1 ⟨1, "", 1, []⟩ (by decide)).1 [] "earth" []

/-- Claim C5: the standardization examples of the specification, with
the full 66-book canon as the known set (as when all 66 books are
extracted): `Gen.1.1` becomes `GEN 1:1`, `1 Cor.3.16` becomes
`1CO 3:16`, `Rom 8.28-30` becomes `ROM 8:28` with the range tail
discarded, and the unknown book `Xyz.1.1` fails to standardize. -/
theorem C5_standardization_examples :
    standardize_verse_ref "Gen.1.1" ABBR_MAP PROTESTANT_CANON_CODES = some "GEN 1:1" ∧
    standardize_verse_ref "1 Cor.3.16" ABBR_MAP PROTESTANT_CANON_CODES = some "1CO 3:16" ∧
    standardize_verse_ref "Rom 8.28-30" ABBR_MAP PROTESTANT_CANON_CODES = some "ROM 8:28" ∧
    standardize_verse_ref "Xyz.1.1" ABBR_MAP PROTESTANT_CANON_CODES = none := by
  refine ⟨by decide, by decide, by decide, by decide⟩

/-- Claim C6: the final cross-reference graph is symmetric: whenever B
appears in the adjacency list of A, B is itself a key of the graph and
A appears in B's adjacency list. -/
theorem C6_crossref_symmetric (known canon lines : List String) (a b : String)
    (hb : b ∈ adj (buildCrossRefs known canon lines) a) :
    ∃ lb, (buildCrossRefs known canon lines).lookup b = some lb ∧ a ∈ lb := by
  obtain ⟨l, hl, hmem⟩ := mem_adj hb
  exact (buildCrossRefs_graphInv known canon lines).adjSymm _ _ _ hl hmem

/-- Claim C6, witness instantiation at a concrete run. -/
theorem C6_witness :
    ("GEN 1:2" ∈ adj (buildCrossRefs ["GEN 1:1", "GEN 1:2"] ["GEN"]
        ["Gen.1.1\tGen.1.2"]) "GEN 1:1") ∧
    ∃ lb, (buildCrossRefs ["GEN 1:1", "GEN 1:2"] ["GEN"]
        ["Gen.1.1\tGen.1.2"]).lookup "GEN 1:2" = some lb ∧ "GEN 1:1" ∈ lb :=
  ⟨by decide, C6_crossref_symmetric _ _ _ "GEN 1:1" "GEN 1:2" (by decide)⟩

/-- Claim C7: in a completed run, every key of the final
cross-reference graph is a key of the verse-text mapping, every
adjacency list is duplicate-free and sorted, and every listed verse is
a known verse different from the key. -/
theorem C7_crossref_valid (bn us : Option (List XmlNode)) (cl : Option (List String))
    (out : Outputs) (hrun : runPipeline bn us cl = .ok out) (k : String) (l : List String)
    (hk : (k, l) ∈ out.refs) :
    k ∈ keysOf out.text ∧ l.Nodup ∧ List.Sorted strLeRel l ∧
      ∀ b ∈ l, b ∈ keysOf out.text ∧ b ≠ k := by
  unfold runPipeline at hrun
  cases hst : stage12 bn us with
  | error e =>
      rw [hst] at hrun
      exact absurd hrun (by simp)
  | ok ex =>
      rw [hst] at hrun
      dsimp only at hrun
      injection hrun with hout
      subst hout
      cases cl with
      | none => simp at hk
      | some lines =>
          have inv := buildCrossRefs_graphInv (keysOf ex.text) ex.bookOrder lines
          have hlk := lookup_of_mem_nodup inv.keysNodup hk
          refine ⟨inv.keyKnown _ _ hlk, inv.adjNodup _ _ hlk,
            buildCrossRefs_sorted _ _ _ _ _ hlk, ?_⟩
          intro b hbmem
          exact ⟨inv.adjKnown _ _ _ hlk hbmem, inv.adjNoSelf _ _ _ hlk hbmem⟩

/-- The outputs of the end-to-end sample run. -/
def sampleOut : Outputs :=
  ⟨[⟨"Genesis", "GEN", [2]⟩],
   [("GEN 1:1", "In the beginning"), ("GEN 1:2", "And the earth")],
   [("GEN 1:1", ["GEN 1:2"]), ("GEN 1:2", ["GEN 1:1"])]⟩

/-- Claim C7, witness instantiation at the end-to-end sample run. -/
theorem C7_witness :
    (runPipeline (some [sampleNameElem]) (some [sampleGen2])
        (some ["Gen.1.1\tGen.1.2"]) = .ok sampleOut) ∧
    (("GEN 1:1", ["GEN 1:2"]) ∈ sampleOut.refs) ∧
    ("GEN 1:1" ∈ keysOf sampleOut.text ∧ (["GEN 1:2"] : List String).Nodup ∧
      List.Sorted strLeRel ["GEN 1:2"] ∧
      ∀ b ∈ (["GEN 1:2"] : List String), b ∈ keysOf sampleOut.text ∧ b ≠ "GEN 1:1") :=
  ⟨rfl, by decide,
    C7_crossref_valid (some [sampleNameElem]) (some [sampleGen2])
      (some ["Gen.1.1\tGen.1.2"]) sampleOut rfl "GEN 1:1" ["GEN 1:2"] (by decide)⟩

/-- Claim C8: a missing cross-reference source file is non-fatal:
whenever the run would complete with the file present, the run with
the file absent also completes, with the same metadata and verse text
and an empty cross-reference graph; and any completed run without the
file has an empty graph. -/
theorem C8_missing_crossref_nonfatal (bn us : Option (List XmlNode)) :
    (∀ out, runPipeline bn us none = .ok out → out.refs = []) ∧
    (∀ lines out, runPipeline bn us (some lines) = .ok out →
      runPipeline bn us none = .ok ⟨out.meta, out.text, []⟩) := by
  constructor
  · intro out h
    unfold runPipeline at h
    cases hst : stage12 bn us with
    | error e =>
        rw [hst] at h
        exact absurd h (by simp)
    | ok ex =>
        rw [hst] at h
        dsimp only at h
        injection h with hout
        rw [← hout]
  · intro lines out h
    unfold runPipeline at h ⊢
    split at h
    · exact absurd h (by simp)
    · next ex hst =>
        dsimp only at h ⊢
        injection h with hout
        rw [← hout]

/-- Claim C8, witness instantiation at the end-to-end sample run. -/
theorem C8_witness :
    runPipeline (some [sampleNameElem]) (some [sampleGen2]) none =
      .ok ⟨sampleOut.meta, sampleOut.text, []⟩ :=
  (C8_missing_crossref_nonfatal (some [sampleNameElem]) (some [sampleGen2])).2
    ["Gen.1.1\tGen.1.2"] sampleOut rfl

/-- Helper for claim C9: with any known set drawn from the canon
codes, standardizing `Gen.01.1` either fails or yields exactly
`GEN 01:1`, preserving the leading zero. -/
theorem standardize_gen01 (S : List String) (hS : ∀ c ∈ S, c ∈ PROTESTANT_CANON_CODES) :
    standardize_verse_ref "Gen.01.1" ABBR_MAP S = none ∨
    standardize_verse_ref "Gen.01.1" ABBR_MAP S = some "GEN 01:1" := by
  unfold standardize_verse_ref
  rw [show citationMatch "Gen.01.1" = some ("Gen", "01", "1") from by decide]
  dsimp only
  rw [show pyStrip "Gen" = "Gen" from by decide]
  rw [show ABBR_MAP.lookup "Gen" = some "GEN" from by decide]
  dsimp only
  by_cases hg : "GEN" ∈ S
  · rw [if_pos ⟨by decide, hg⟩]
    exact Or.inr rfl
  · rw [if_neg (fun hc => hg hc.2)]
    have hgen : "Gen" ∉ S := fun hc => absurd (hS _ hc) (by decide)
    rw [if_neg hgen]
    rw [show pyUpper "Gen" = "GEN" from by decide]
    rw [if_neg hg]
    exact Or.inl rfl

/-- Claim C9: a citation with a leading zero, such as `Gen.01.1`,
standardizes (against the fixed canon set) to `GEN 01:1` with the
zero preserved, while every verse-text key is built from int-parsed
positive numbers and so never carries a leading zero; hence such a
citation fails the known-verses check and linking it changes the
cross-reference dict in no run. -/
theorem C9_leading_zero_never_linked (nd : List (String × String)) (books : List XmlNode) :
    standardize_verse_ref "Gen.01.1" ABBR_MAP PROTESTANT_CANON_CODES = some "GEN 01:1" ∧
    "GEN 01:1" ∉ keysOf (extractBooks nd books).text ∧
    (∀ g rawB, linkPair (keysOf (extractBooks nd books).text)
        (extractBooks nd books).bookOrder g "Gen.01.1" rawB = g) := by
  refine ⟨?_, extract_no_gen01 nd books, ?_⟩
  · rcases standardize_gen01 PROTESTANT_CANON_CODES (fun c hc => hc) with h | h
    · exact absurd h (by decide)
    · exact h
  · intro g rawB
    unfold linkPair
    rcases standardize_gen01 (extractBooks nd books).bookOrder
        (extract_order_canon nd books) with h | h
    · rw [h]
    · rw [h]
      cases hb : standardize_verse_ref rawB ABBR_MAP (extractBooks nd books).bookOrder with
      | none => rfl
      | some sb =>
          dsimp only
          split
          · rw [if_neg (fun hmem => extract_no_gen01 nd books hmem.1)]
          · rfl

/-- Claim C10: every key of the final cross-reference graph maps to a
nonempty adjacency list (an entry is created only when a neighbor is
inserted). -/
theorem C10_adjacency_nonempty (known canon lines : List String) (k : String)
    (l : List String) (hk : (k, l) ∈ buildCrossRefs known canon lines) : l ≠ [] := by
  have inv := buildCrossRefs_graphInv known canon lines
  exact inv.adjNe _ _ (lookup_of_mem_nodup inv.keysNodup hk)

/-- Claim C10, witness instantiation at a concrete run. -/
theorem C10_witness :
    (("GEN 1:1", ["GEN 1:2"]) ∈ buildCrossRefs ["GEN 1:1", "GEN 1:2"] ["GEN"]
        ["Gen.1.1\tGen.1.2"]) ∧
    (["GEN 1:2"] : List String) ≠ [] :=
  ⟨by decide, C10_adjacency_nonempty ["GEN 1:1", "GEN 1:2"] ["GEN"]
    ["Gen.1.1\tGen.1.2"] "GEN 1:1" ["GEN 1:2"] (by decide)⟩

end Preprocess
